import Mathlib

/-!
Verification development for the JSONPath query engine of uBlock Origin
(file `src/js/jsonpath.js`, class `JSONPath`).

The engine is embedded shallowly:

* JavaScript structured values (the documents being queried) become the
  inductive type `Value`.  A JS `undefined` is represented as `Option.none`
  at the places where an access can miss; `null` is the `Value.null`
  constructor.
* Property access `o[k]`, which in JS throws a `TypeError` when `o` is
  `null` or `undefined`, is modelled in the `Except Unit` monad
  (`Except.error ()` <-> an exception propagating out of the engine).
* The compiler (`#compile` and its helpers) and the evaluator
  (`#evaluate`, `#getMatches`, `#getDescendants`, `#evaluateExpr`,
  `resolvePath`) are translated function by function.  Loops on a string
  index and the lazy descendant iterator are expressed with structural
  fuel (`Nat`) so that every definition is executable and reduces in the
  kernel; the fuel supplied by the public entry points is always
  sufficient, and no theorem below depends on fuel exhaustion behaviour.
-/

namespace JSONPath

/-- A structured value: the document tree the engine queries.  JS numbers
are modelled as integers (`Int`); the queries and documents treated by
this development only involve integral numbers.  Object fields keep the
document's own key order, as JS `Object.keys` does. -/
inductive Value where
  | null : Value
  | bool : Bool → Value
  | num : Int → Value
  | str : String → Value
  | arr : List Value → Value
  | obj : List (String × Value) → Value

/-- One component of a path: a string object key or an integer array
index, exactly the two kinds of keys the engine pushes onto paths. -/
inductive Key where
  | str : String → Key
  | idx : Int → Key
deriving DecidableEq

/-- A path: ordered key sequence from the document root. -/
abbrev Path := List Key

/-- First-match association-list lookup: JS object property access on our
field list (JS object keys are unique, see `WFv`). -/
def lookupField : List (String × Value) → String → Option Value
  | [], _ => none
  | (k, v) :: rest, s => if k = s then some v else lookupField rest s

/-- Decimal string of a canonical (no sign, no leading zero) array index,
used to model JS treating `a[\x22 2\x22 ]` like `a[2]`. -/
def canonNat : List Char → Option Nat
  | [] => none
  | [c] => if c.isDigit then some (c.toNat - 48) else none
  | c :: rest =>
    if c.isDigit ∧ c ≠ '0' ∧ rest.all Char.isDigit then
      some (rest.foldl (fun acc d => acc * 10 + (d.toNat - 48)) (c.toNat - 48))
    else none

/-- Property read `v[k]` for a defined, non-null `v`; `none` is JS
`undefined` (missing property).  Number keys on objects use the decimal
string of the number, as JS property coercion does.  Array string keys
resolve canonical decimal numerals to indices; other array own
properties (such as `length`) are outside the model. -/
def jsGet : Value → Key → Option Value
  | .obj fs, .str s => lookupField fs s
  | .obj fs, .idx n => lookupField fs (toString n)
  | .arr xs, .idx n => if 0 ≤ n then xs[n.toNat]? else none
  | .arr xs, .str s =>
    match canonNat s.data with
    | some m => xs[m]?
    | none => none
  | _, _ => none

/-- `v instanceof Object` for document values: arrays and plain objects. -/
def isContainer : Value → Bool
  | .arr _ => true
  | .obj _ => true
  | _ => false

/-- Property access through a possibly-undefined receiver: `o[k]` throws
(`.error ()`) when `o` is JS `undefined` or `null`. -/
def jsIndex (o : Option Value) (k : Key) : Except Unit (Option Value) :=
  match o with
  | none => .error ()
  | some .null => .error ()
  | some v => .ok (jsGet v k)

/-- The chained access `obj = obj[path[i]]` loop of `resolvePath`
(jsonpath.js lines 44-46), generalized to any starting receiver. -/
def walk (o : Option Value) : List Key → Except Unit (Option Value)
  | [] => .ok o
  | k :: ks =>
    match jsIndex o k with
    | .error e => .error e
    | .ok w => walk w ks

/-- Result record of `resolvePath`: `obj`/`key` are absent for the empty
path (JS leaves those fields `undefined`). -/
structure Resolved where
  obj : Option Value
  key : Option Key
  value : Option Value

/-- `resolvePath` (jsonpath.js lines 40-48): zero-length path returns the
root with no container; otherwise walks every element but the last and
reads the final key from the resulting container.  The walk throws when
an intermediate receiver is `undefined` or `null`, exactly as the JS
`obj[path[i]]` chain does. -/
def resolvePath (root : Value) (path : Path) : Except Unit Resolved :=
  match path.getLast? with
  | none => .ok ⟨none, none, some root⟩
  | some key =>
    match walk (some root) path.dropLast with
    | .error e => .error e
    | .ok o =>
      match jsIndex o key with
      | .error e => .error e
      | .ok value => .ok ⟨o, some key, value⟩

/-- Well-formed documents: every object node has pairwise-distinct keys.
Every value reachable from a JS runtime object satisfies this; it is the
standing assumption under which the association-list model of objects
agrees with JS property lookup. -/
inductive WFv : Value → Prop where
  | null : WFv .null
  | bool (b : Bool) : WFv (.bool b)
  | num (n : Int) : WFv (.num n)
  | str (s : String) : WFv (.str s)
  | arr (xs : List Value) : (∀ x ∈ xs, WFv x) → WFv (.arr xs)
  | obj (fs : List (String × Value)) :
      (fs.map Prod.fst).Nodup → (∀ kv ∈ fs, WFv kv.2) → WFv (.obj fs)

/-- Movement constants of the class (`#UNDEFINED`..`#DESCENDANTS`,
lines 52-56) plus `undefJS`: the JS `undefined` that line 133
(`mv ||= this.CHILDREN`) stores into a step, because the class has no
public `CHILDREN` property (the sibling branches use `this.#CHILDREN`).
Only `undef0` (the numeric `#UNDEFINED = 0`) and `undefJS` are falsy. -/
inductive Mv where
  | undef0 | root | current | children | descendants | undefJS
deriving DecidableEq

/-- JS truthiness of a movement value: `0` and `undefined` are falsy. -/
def mvTruthy : Mv → Bool
  | .undef0 => false
  | .undefJS => false
  | _ => true

/-- `mv ||= d` / `mv || d`. -/
def mvOr (m d : Mv) : Mv := if mvTruthy m then m else d

/-- Comparison operators of `#reExpr` (line 58). -/
inductive Op where
  | eq | ne | lt | le | gt | ge | sw | ew | ct
deriving DecidableEq

/-- One step of a compiled plan (the objects pushed by `#compile`).
`k = none` and `steps = []` both mean the corresponding field is absent;
the compiler never emits a step carrying both a truthy key and a nested
plan.  The alternation form (`k` an array of keys, lines 188-191 of
`#getMatches`) is dead code for compiler-produced plans — `#compile`
only ever stores a string or a number in `k` — and is not modelled. -/
inductive Step where
  | mk : Mv → Option Key → List Step → Option Op → Option Value → Bool → Step

def Step.mv : Step → Mv
  | .mk m _ _ _ _ _ => m

def Step.k : Step → Option Key
  | .mk _ k _ _ _ _ => k

def Step.steps : Step → List Step
  | .mk _ _ ss _ _ _ => ss

def Step.op : Step → Option Op
  | .mk _ _ _ o _ _ => o

def Step.rval : Step → Option Value
  | .mk _ _ _ _ r _ => r

def Step.notFlag : Step → Bool
  | .mk _ _ _ _ _ b => b

/-- A compiled plan: the step list plus the source offset consumed. -/
structure Plan where
  steps : List Step
  i : Nat

/-- JS `ToString` of an element inside an array join: `null` (and
`undefined`, which cannot occur inside our documents) becomes the empty
string; everything else stringifies as usual. -/
def jsToStringElem : Value → String
  | .null => ""
  | .bool b => toString b
  | .num n => toString n
  | .str s => s
  | .arr xs => jsToStringArr xs
  | .obj _ => "[object Object]"
where
  /-- `Array.prototype.toString`: elements joined with commas. -/
  jsToStringArr : List Value → String
  | [] => ""
  | [x] => jsToStringElem x
  | x :: rest => jsToStringElem x ++ "," ++ jsToStringArr rest

/-- JS `ToString` / template-literal coercion of a document value. -/
def jsToString : Value → String
  | .null => "null"
  | .bool b => toString b
  | .num n => toString n
  | .str s => s
  | .arr xs => jsToStringElem.jsToStringArr xs
  | .obj _ => "[object Object]"

/-- `ToString` of the possibly-undefined value read by `#evaluateExpr`. -/
def jsToStringO : Option Value → String
  | none => "undefined"
  | some v => jsToString v

/-- JS `ToNumber` on a trimmed string: empty means `0`, an optionally
signed decimal numeral means its value, anything else is NaN (`none`).
Fractional and exponent forms are outside the integer-valued model. -/
def strToNum (s : String) : Option Int :=
  let t := s.trim.data
  match t with
  | [] => some 0
  | c :: rest =>
    let (neg, ds) : Bool × List Char :=
      if c = '-' then (true, rest) else if c = '+' then (false, rest) else (false, t)
    if ds ≠ [] ∧ ds.all Char.isDigit then
      let n : Int := ds.foldl (fun acc d => acc * 10 + (d.toNat - 48 : Int)) 0
      some (if neg then -n else n)
    else none

/-- JS `ToNumber` of a document value; `none` is NaN. Containers coerce
through their string form. -/
def toNum : Value → Option Int
  | .num n => some n
  | .bool b => some (if b then 1 else 0)
  | .null => some 0
  | .str s => strToNum s
  | .arr xs => strToNum (jsToStringElem.jsToStringArr xs)
  | .obj _ => none

def toNumO : Option Value → Option Int
  | none => none
  | some v => toNum v

/-- The abstract relational comparison used by `<`, `<=`, `>`, `>=`
(lines 320-323): two strings compare lexicographically, otherwise both
sides coerce to numbers and NaN (`none`) makes every comparison false. -/
def jsCmp (a b : Option Value) : Option Ordering :=
  match a, b with
  | some (.str s), some (.str t) => some (compare s t)
  | _, _ =>
    match toNumO a, toNumO b with
    | some x, some y => some (compare x y)
    | _, _ => none

/-- JS strict equality `===` between the document value under test and
the predicate literal.  Scalars compare structurally; a container never
strictly equals the predicate's literal, because `JSON.parse` allocates
a fresh object that cannot be reference-identical to a document node. -/
def jsStrictEq : Option Value → Option Value → Bool
  | none, none => true
  | some .null, some .null => true
  | some (.bool x), some (.bool y) => x = y
  | some (.num x), some (.num y) => x = y
  | some (.str x), some (.str y) => x = y
  | _, _ => false

/-- Contiguous-sublist test on character lists. -/
def charsInfix (needle : List Char) : List Char → Bool
  | [] => needle.isEmpty
  | c :: rest => needle.isPrefixOf (c :: rest) || charsInfix needle rest

/-- Substring test used by `*=` (`String.prototype.includes`). -/
def strIncludes (hay needle : String) : Bool :=
  charsInfix needle.data hay.data

/-- `Object.hasOwn(o, k)` guarded by `o instanceof Object`
(line 313): only containers can own a key, and ownership is modelled as
the key being present.  (Array `length` and other non-index own
properties of exotic objects are outside the model.) -/
def hasOwnR (o : Option Value) (k : Option Key) : Bool :=
  match o, k with
  | some v, some kk => isContainer v && (jsGet v kk).isSome
  | _, _ => false

/-- `o[k]` where the key itself may be absent (it never is on the paths
the evaluator builds; reading property `undefined` from a defined
receiver yields `undefined`). -/
def jsIndexK (o : Option Value) (k : Option Key) : Except Unit (Option Value) :=
  match o with
  | none => .error ()
  | some .null => .error ()
  | some v =>
    match k with
    | none => .ok none
    | some kk => .ok (jsGet v kk)

/-- `#evaluateExpr` (lines 311-331): resolve the candidate path, read
container/key/value, test the optional comparison predicate (ownership
check when there is no operator), honor the negation flag, and return
the path when the outcome says to keep it (`out.push(path)`). -/
def evaluateExpr (root : Value) (st : Step) (path : Path) : Except Unit (Option Path) :=
  match resolvePath root path with
  | .error e => .error e
  | .ok r =>
    let hasOwn := hasOwnR r.obj r.key
    match jsIndexK r.obj r.key with
    | .error e => .error e
    | .ok v =>
      if st.op.isSome ∧ hasOwn = false then .ok none
      else
        let outcome : Bool :=
          match st.op with
          | some .eq => jsStrictEq v st.rval
          | some .ne => !jsStrictEq v st.rval
          | some .lt => jsCmp v st.rval = some .lt
          | some .le => jsCmp v st.rval = some .lt ∨ jsCmp v st.rval = some .eq
          | some .gt => jsCmp st.rval v = some .lt
          | some .ge => jsCmp st.rval v = some .lt ∨ jsCmp st.rval v = some .eq
          | some .sw => (jsToStringO v).startsWith (jsToStringO st.rval)
          | some .ew => (jsToStringO v).endsWith (jsToStringO st.rval)
          | some .ct => strIncludes (jsToStringO v) (jsToStringO st.rval)
          | none => hasOwn
        if outcome = st.notFlag then .ok none else .ok (some path)

/-- Run `#evaluateExpr` over a list of candidate paths, keeping the
pushed ones in order (the `listout.push` accumulation). -/
def evalExprMany (root : Value) (st : Step) : List Path → Except Unit (List Path)
  | [] => .ok []
  | p :: ps =>
    match evaluateExpr root st p with
    | .error e => .error e
    | .ok o =>
      match evalExprMany root st ps with
      | .error e => .error e
      | .ok rest => .ok (o.toList ++ rest)

mutual
/-- Structural size of a value, used as (always sufficient) fuel for the
descendant enumeration. -/
def vsize : Value → Nat
  | .arr xs => 1 + vsizeList xs
  | .obj fs => 1 + vsizeFields fs
  | _ => 1

def vsizeList : List Value → Nat
  | [] => 0
  | x :: xs => 1 + vsize x + vsizeList xs

def vsizeFields : List (String × Value) → Nat
  | [] => 0
  | kv :: rest => 1 + vsize kv.2 + vsizeFields rest
end

/-- One element produced by the descendant iterator of
`#getDescendants`: the immediate container, the key inside it, and the
path of the entry relative to the value the enumeration started from. -/
structure DEntry where
  obj : Value
  key : Key
  path : List Key

/-- Children of an array value as (key, child) pairs, keys being the
array indices in order (`v.keys()`). -/
def withIdx (i : Nat) : List Value → List (Key × Value)
  | [] => []
  | x :: xs => (Key.idx (i : Int), x) :: withIdx (i + 1) xs

/-- Children of an object value as (key, child) pairs in the document's
own key order (`Object.keys(v)`). -/
def objChildren (fs : List (String × Value)) : List (Key × Value) :=
  fs.map (fun kv => (Key.str kv.1, kv.2))

/-- Emit the entries for one frame's children in order: each child is
yielded before its own subtree (`g` produces the subtree entries; it is
empty in the non-recursive mode).  This is the eager transcript of the
stack-driven iterator of `#getDescendants` (lines 226-270), which
yields pre-order: an entry, then — only in recursive mode, and only when
the child is an array or object — everything below it. -/
def goChildren (g : Value → List DEntry) (container : Value) :
    List (Key × Value) → List DEntry
  | [] => []
  | (k, x) :: rest =>
    ⟨container, k, [k]⟩ ::
      ((g x).map (fun e => ⟨e.obj, e.key, k :: e.path⟩) ++ goChildren g container rest)

/-- Fueled descendant enumeration; the fuel only bounds nesting depth
and `sizeOf v` is always enough (see `getDescendants`). -/
def getDescendantsF : Nat → Value → Bool → List DEntry
  | 0, _, _ => []
  | f + 1, v, recursive =>
    match v with
    | .arr xs =>
      goChildren (fun x => if recursive ∧ isContainer x then getDescendantsF f x recursive else [])
        (.arr xs) (withIdx 0 xs)
    | .obj fs =>
      goChildren (fun x => if recursive ∧ isContainer x then getDescendantsF f x recursive else [])
        (.obj fs) (objChildren fs)
    | _ => []

/-- `#getDescendants(v, recursive)` as the eager list of entries in the
iterator's yield order. -/
def getDescendants (v : Value) (recursive : Bool) : List DEntry :=
  getDescendantsF (vsize v) v recursive

/-- The descendant half of the literal/integer key case of
`#getMatches` (lines 196-201): walk every descendant entry, and when
the value under it is a container owning key `kk`, test the extended
path.  Produces the paths handed to `#evaluateExpr`. -/
def descKeyTargets (v : Value) (kk : Key) (pathin : Path) (recursive : Bool) : List Path :=
  (getDescendants v recursive).filterMap (fun e =>
    match jsGet e.obj e.key with
    | some w => if isContainer w ∧ (jsGet w kk).isSome then some (pathin ++ e.path ++ [kk]) else none
    | none => none)

/-- `Array.isArray(w)` for the possibly-undefined value `w = obj[key]`
read inside the descendant loops. -/
def isArrOpt : Option Value → Bool
  | some (.arr _) => true
  | _ => false

/-- The nested-plan loop over descendants (lines 213-221): entries whose
value is an array are skipped; for the rest the nested plan is evaluated
at the extended path, which survives iff the nested evaluation is
non-empty.  `ev` is the recursive `#evaluate` entry point. -/
def descEvalLoop (ev : Path → List Step → Except Unit (List Path)) (ss : List Step)
    (pathin : Path) : List DEntry → Except Unit (List Path)
  | [] => .ok []
  | e :: rest =>
    if isArrOpt (jsGet e.obj e.key) then descEvalLoop ev ss pathin rest
    else
      let x := pathin ++ e.path
      match ev x ss with
      | .error er => .error er
      | .ok r =>
        match descEvalLoop ev ss pathin rest with
        | .error er => .error er
        | .ok more => .ok ((if r.isEmpty then [] else [x]) ++ more)

/-- JS truthiness of the `k` field (`if ( k )`, line 173): absent, the
empty string and the number `0` are falsy. -/
def kTruthy : Option Key → Bool
  | none => false
  | some (.str s) => s ≠ ""
  | some (.idx n) => n ≠ 0

/-- The wildcard case of `#getMatches` (lines 174-180): every entry of
the (shallow or deep) enumeration is predicate-tested. -/
def wildcardBranch (root : Value) (st : Step) (pathin : Path) (v : Value)
    (recursive : Bool) : Except Unit (List Path) :=
  evalExprMany root st ((getDescendants v recursive).map (fun e => pathin ++ e.path))

/-- The literal/integer key case of `#getMatches` (lines 181-201):
test the key at the node itself (`kfirst`), then in descendants mode
search every descendant container owning `kdesc`. -/
def keyTestBranch (root : Value) (st : Step) (pathin : Path) (v : Value)
    (recursive : Bool) (kfirst kdesc : Key) : Except Unit (List Path) :=
  match evaluateExpr root st (pathin ++ [kfirst]) with
  | .error e => .error e
  | .ok first =>
    if recursive then
      match evalExprMany root st (descKeyTargets v kdesc pathin recursive) with
      | .error e => .error e
      | .ok more => .ok (first.toList ++ more)
    else .ok first.toList

/-- The nested-plan branch (`if ( steps )`, lines 204-222); an absent
nested plan is the empty list and contributes nothing. -/
def nestedBranch (ev : Path → List Step → Except Unit (List Path)) (root : Value)
    (st : Step) (pathin : Path) (v : Value) (recursive : Bool) : Except Unit (List Path) :=
  let ss := st.steps
  match v with
  | .arr _ => descEvalLoop ev ss pathin (getDescendants v recursive)
  | _ =>
    match ev pathin ss with
    | .error e => .error e
    | .ok r1 =>
      let first : List Path := if r1.isEmpty then [] else [pathin]
      if recursive then
        match descEvalLoop ev ss pathin (getDescendants v recursive) with
        | .error e => .error e
        | .ok more => .ok (first ++ more)
      else .ok first

/-- The body of the `for ( const pathin of listin )` loop of
`#getMatches` (lines 168-223) for a candidate path whose resolved value
`v` is defined and non-null (the `continue` guards of lines 170-171
have already passed). -/
def matchOneVal (ev : Path → List Step → Except Unit (List Path)) (root : Value)
    (pathin : Path) (st : Step) (v : Value) : Except Unit (List Path) :=
  let recursive : Bool := st.mv == Mv.descendants
  if kTruthy st.k then
    match st.k with
    | some (.str s) =>
      if s = ("*") then wildcardBranch root st pathin v recursive
      else keyTestBranch root st pathin v recursive (Key.str s) (Key.str s)
    | some (.idx n) =>
      match v with
      | .arr xs =>
        let len : Int := (xs.length : Int)
        let i : Int := if 0 ≤ n then n else len + n
        if i < 0 then .ok []
        else if len ≤ i then .ok []
        -- the descendant search reuses the raw (unresolved) index `n`
        else keyTestBranch root st pathin v recursive (Key.idx i) (Key.idx n)
      | _ => .ok []
    | none => .ok []
  else nestedBranch ev root st pathin v recursive

/-- One iteration of the `for ( const pathin of listin )` loop of
`#getMatches`: resolve the candidate; an undefined or null value is
skipped (lines 170-171), otherwise hand over to `matchOneVal`. -/
def matchOne (ev : Path → List Step → Except Unit (List Path)) (root : Value)
    (pathin : Path) (st : Step) : Except Unit (List Path) :=
  match resolvePath root pathin with
  | .error e => .error e
  | .ok r =>
    match r.value with
    | none => .ok []
    | some .null => .ok []
    | some v => matchOneVal ev root pathin st v

/-- `#getMatches` (lines 165-225): fold `matchOne` over the candidate
set, concatenating the pushed paths in order. -/
def getMatchesHO (ev : Path → List Step → Except Unit (List Path)) (root : Value) :
    List Path → Step → Except Unit (List Path)
  | [], _ => .ok []
  | p :: ps, st =>
    match matchOne ev root p st with
    | .error e => .error e
    | .ok outs =>
      match getMatchesHO ev root ps st with
      | .error e => .error e
      | .ok rest => .ok (outs ++ rest)

/-- One iteration of the step loop of `#evaluate` (lines 147-162):
anchors reset the candidate set, movements expand it, and any other
movement value (`#UNDEFINED` or the `undefined` produced by the
`this.CHILDREN` slip on line 133) falls into `default` and leaves the
candidate set untouched. -/
def stepApply (ev : Path → List Step → Except Unit (List Path)) (root : Value)
    (pathin : Path) (res : List Path) (st : Step) : Except Unit (List Path) :=
  match st.mv with
  | .root => .ok [[]]
  | .current => .ok [pathin]
  | .children => getMatchesHO ev root res st
  | .descendants => getMatchesHO ev root res st
  | _ => .ok res

/-- The step loop of `#evaluate`, threading the candidate set. -/
def goSteps (ev : Path → List Step → Except Unit (List Path)) (root : Value)
    (pathin : Path) : List Step → List Path → Except Unit (List Path)
  | [], res => .ok res
  | st :: rest, res =>
    match stepApply ev root pathin res st with
    | .error e => .error e
    | .ok res2 => goSteps ev root pathin rest res2

mutual
/-- Structural size of a step, used as (always sufficient) fuel for the
nested-plan recursion of the evaluator. -/
def ssize : Step → Nat
  | .mk _ _ ss _ _ _ => 1 + ssizeList ss

def ssizeList : List Step → Nat
  | [] => 0
  | s :: rest => 1 + ssize s + ssizeList rest
end

/-- `#evaluate(steps, pathin)` with a fuel bound on the nesting depth of
sub-plan recursion; `ssizeList steps + 1` is always sufficient (claim
C4's theorem proves fuel is never exhausted from the public entry
point). -/
def evalSteps : Nat → Value → Path → List Step → List Path → Except Unit (List Path)
  | 0, _, _, _, _ => .error ()
  | d + 1, root, pathin, steps, res =>
    goSteps (fun p ss => evalSteps d root p ss []) root pathin steps res

/-- The public `evaluate(root)` (lines 35-39): no compiled plan means an
empty result, otherwise run the steps from the root with an empty
incoming path and candidate set. -/
def evaluateJP (compiled : Option Plan) (root : Value) : Except Unit (List Path) :=
  match compiled with
  | none => .ok []
  | some p => evalSteps (ssizeList p.steps + 1) root [] p.steps []

/-- The single-quote character (code 0x27), written by code point to
keep the development free of quote-escaping. -/
def sq : Char := Char.ofNat 39

/-- The backslash character (code 0x5C). -/
def bsl : Char := Char.ofNat 92

/-- The double-quote character (code 0x22), used by JSON literals. -/
def dq : Char := Char.ofNat 34

/-- `query.charCodeAt(i)`: `none` models the NaN of an out-of-range
read, which compares unequal to every character. -/
def charAt (q : List Char) (i : Nat) : Option Char := q[i]?

/-- `query.startsWith(lit, i)`. -/
def startsWithAt (lit : List Char) (q : List Char) (i : Nat) : Bool :=
  lit.isPrefixOf (q.drop i)

/-- `query.slice(a, b)`. -/
def slice (q : List Char) (a b : Nat) : List Char := (q.drop a).take (b - a)

def isIdentStart (c : Char) : Bool := c.isAlpha || c = '_'

def isWordChar (c : Char) : Bool := c.isAlphanum || c = '_'

/-- `#consumeUnquotedIdentifier` (lines 296-300): the regex
`^[A-Za-z_][\w]*|^\*` applied at offset `i`. -/
def consumeUnquotedIdentifier (q : List Char) (i : Nat) : Option (List Char) :=
  match q.drop i with
  | [] => none
  | c :: rest =>
    if isIdentStart c then some (c :: rest.takeWhile isWordChar)
    else if c = '*' then some [c]
    else none

/-- The scanning loop of `#consumeQuotedIdentifier` (lines 275-293),
fueled by remaining length.  A closing quote must be followed by `]`;
encountering a backslash that is not the last character reaches the
`query.chatCodeAt(end+1)` call — a typo for `charCodeAt` — which throws
`TypeError: query.chatCodeAt is not a function`, modelled as
`.error ()`.  (A backslash as the final character skips that branch and
the subsequent iteration runs off the end, returning no match.) -/
def cqiGo : Nat → List Char → Nat → Nat → List (List Char) → Except Unit (Option (String × Nat))
  | 0, _, _, _, _ => .ok none
  | f + 1, q, beg, en, parts =>
    if en = q.length then .ok none
    else
      match charAt q en with
      | none => .ok none
      | some c =>
        if c = sq then
          if startsWithAt [sq, ']'] q en then
            .ok (some (String.mk ((parts ++ [slice q beg en]).flatten), en + 2))
          else .ok none
        else if c = bsl ∧ en + 1 < q.length then .error ()
        else cqiGo f q beg (en + 1) parts

/-- `#consumeQuotedIdentifier(query, i)` (lines 271-295). -/
def consumeQuotedIdentifier (q : List Char) (i : Nat) : Except Unit (Option (String × Nat)) :=
  cqiGo (q.length + 1) q i i []

/-- The lazy `(.+?)\)\]` tail of `#reExpr`: the shortest non-empty run
of dot-matchable characters (no line terminators) followed by `)]`. -/
def findLit : List Char → Option (List Char)
  | [] => none
  | c :: rest =>
    if c = Char.ofNat 10 ∨ c = Char.ofNat 13 then none
    else
      match rest with
      | ')' :: ']' :: _ => some [c]
      | _ => (findLit rest).map (fun l => c :: l)

def opChar1 (c : Char) : Bool := c = '!' || c = '=' || c = '^' || c = '$' || c = '*'

def opOf2 (c : Char) : Op :=
  if c = '!' then .ne else if c = '=' then .eq
  else if c = '^' then .sw else if c = '$' then .ew else .ct

/-- `#reExpr` = `^([!=^$*]=|[<>]=?)(.+?)\)\]` (line 58) matched against
the tail of the query: returns the operator, the number of operator
characters, and the literal text.  The `[<>]=?` alternative prefers the
two-character operator and backtracks to the one-character form if the
rest of the pattern cannot complete. -/
def reExprMatch (s : List Char) : Option (Op × Nat × List Char) :=
  match s with
  | [] => none
  | c1 :: rest1 =>
    if opChar1 c1 then
      match rest1 with
      | '=' :: rest2 => (findLit rest2).map (fun l => (opOf2 c1, 2, l))
      | _ => none
    else if c1 = '<' ∨ c1 = '>' then
      match rest1 with
      | '=' :: rest2 =>
        match findLit rest2 with
        | some l => some (if c1 = '<' then Op.le else Op.ge, 2, l)
        | none => (findLit rest1).map (fun l => (if c1 = '<' then Op.lt else Op.gt, 1, l))
      | _ => (findLit rest1).map (fun l => (if c1 = '<' then Op.lt else Op.gt, 1, l))
    else none

def jsonWS (c : Char) : Bool :=
  c = ' ' || c = Char.ofNat 9 || c = Char.ofNat 10 || c = Char.ofNat 13

def skipWS (s : List Char) : List Char := s.dropWhile jsonWS

def hexVal (c : Char) : Option Nat :=
  if c.isDigit then some (c.toNat - 48)
  else if 'a' ≤ c ∧ c ≤ 'f' then some (c.toNat - 87)
  else if 'A' ≤ c ∧ c ≤ 'F' then some (c.toNat - 55)
  else none

/-- Body of a JSON string literal after the opening quote: decoded
characters plus the remainder after the closing quote. -/
def jpStringBody : Nat → List Char → Option (List Char × List Char)
  | 0, _ => none
  | f + 1, s =>
    match s with
    | [] => none
    | c :: rest =>
      if c = dq then some ([], rest)
      else if c = bsl then
        match rest with
        | [] => none
        | e :: rest2 =>
          let cont (ch : Char) (r : List Char) : Option (List Char × List Char) :=
            (jpStringBody f r).map (fun p => (ch :: p.1, p.2))
          if e = dq ∨ e = bsl ∨ e = '/' then cont e rest2
          else if e = 'b' then cont (Char.ofNat 8) rest2
          else if e = 'f' then cont (Char.ofNat 12) rest2
          else if e = 'n' then cont (Char.ofNat 10) rest2
          else if e = 'r' then cont (Char.ofNat 13) rest2
          else if e = 't' then cont (Char.ofNat 9) rest2
          else if e = 'u' then
            match rest2 with
            | h1 :: h2 :: h3 :: h4 :: rest3 =>
              match hexVal h1, hexVal h2, hexVal h3, hexVal h4 with
              | some a, some b, some c2, some d =>
                cont (Char.ofNat (((a * 16 + b) * 16 + c2) * 16 + d)) rest3
              | _, _, _, _ => none
            | _ => none
          else none
      else if c.toNat < 32 then none
      else (jpStringBody f rest).map (fun p => (c :: p.1, p.2))

def digitsToNat (ds : List Char) : Nat :=
  ds.foldl (fun acc d => acc * 10 + (d.toNat - 48)) 0

/-- A JSON number literal.  The grammar (optional minus, canonical
integer part, optional fraction/exponent) is recognized, but a fraction
or exponent yields no value: non-integral numbers are outside the
integer-valued model of this development. -/
def jpNumber (s : List Char) : Option (Value × List Char) :=
  let (neg, s1) : Bool × List Char :=
    match s with
    | '-' :: r => (true, r)
    | _ => (false, s)
  let ds := s1.takeWhile Char.isDigit
  if ds = [] then none
  else if 1 < ds.length ∧ ds.head? = some '0' then none
  else
    match s1.drop ds.length with
    | '.' :: _ => none
    | 'e' :: _ => none
    | 'E' :: _ => none
    | rest =>
      let n : Int := (digitsToNat ds : Int)
      some (.num (if neg then -n else n), rest)

mutual
/-- One JSON value (with leading whitespace) and the remainder. -/
def jpValue : Nat → List Char → Option (Value × List Char)
  | 0, _ => none
  | f + 1, s0 =>
    match skipWS s0 with
    | [] => none
    | c :: rest =>
      if c = dq then
        (jpStringBody (rest.length + 1) rest).map (fun p => (.str (String.mk p.1), p.2))
      else if c = '[' then
        match skipWS rest with
        | ']' :: rem => some (.arr [], rem)
        | s2 => (jpElements f s2).map (fun p => (.arr p.1, p.2))
      else if c = Char.ofNat 123 then
        match skipWS rest with
        | c2 :: rem =>
          if c2 = Char.ofNat 125 then some (.obj [], rem)
          else (jpMembers f (c2 :: rem)).map (fun p => (.obj p.1, p.2))
        | [] => none
      else if startsWithAt ['n', 'u', 'l', 'l'] (c :: rest) 0 then some (.null, rest.drop 3)
      else if startsWithAt ['t', 'r', 'u', 'e'] (c :: rest) 0 then some (.bool true, rest.drop 3)
      else if startsWithAt ['f', 'a', 'l', 's', 'e'] (c :: rest) 0 then some (.bool false, rest.drop 4)
      else jpNumber (c :: rest)

/-- Comma-separated JSON array elements up to the closing bracket. -/
def jpElements : Nat → List Char → Option (List Value × List Char)
  | 0, _ => none
  | f + 1, s =>
    match jpValue f s with
    | none => none
    | some (v, rem) =>
      match skipWS rem with
      | ',' :: rem2 => (jpElements f rem2).map (fun p => (v :: p.1, p.2))
      | ']' :: rem2 => some ([v], rem2)
      | _ => none

/-- Comma-separated JSON object members up to the closing brace. -/
def jpMembers : Nat → List Char → Option (List (String × Value) × List Char)
  | 0, _ => none
  | f + 1, s =>
    match skipWS s with
    | c :: rest =>
      if c = dq then
        match jpStringBody (rest.length + 1) rest with
        | none => none
        | some (cs, rem) =>
          match skipWS rem with
          | ':' :: rem2 =>
            match jpValue f rem2 with
            | none => none
            | some (v, rem3) =>
              match skipWS rem3 with
              | ',' :: rem4 => (jpMembers f rem4).map (fun p => ((String.mk cs, v) :: p.1, p.2))
              | c5 :: rem5 =>
                if c5 = Char.ofNat 125 then some ([(String.mk cs, v)], rem5) else none
              | [] => none
          | _ => none
      else none
    | [] => none
end

/-- `JSON.parse` on the literal text of a comparison predicate: a whole
JSON document, with nothing but whitespace allowed after it. -/
def jsonParse (s : List Char) : Option Value :=
  match jpValue (s.length + 1) s with
  | none => none
  | some (v, rem) => if (skipWS rem).isEmpty then some v else none

/-- Store operator and literal on a step (`step.rval = ...; step.op = ...`,
lines 305-306); both assignments happen only when the parse succeeds,
because the `JSON.parse` throw aborts before either field is kept. -/
def setOpRval : Step → Op → Value → Step
  | .mk m k ss _ _ nf, op, v => .mk m k ss (some op) (some v) nf

/-- `#compileExpr(step, query, i)` (lines 301-310): try `#reExpr` at
offset `i`; on no match return `i` unchanged; on a match whose literal
fails to decode, consume the matched operator and literal but leave the
step untouched; otherwise attach operator and decoded literal. -/
def compileExpr (st : Step) (q : List Char) (i : Nat) : Step × Nat :=
  match reExprMatch (q.drop i) with
  | none => (st, i)
  | some (op, oplen, lit) =>
    match jsonParse lit with
    | none => (st, i + oplen + lit.length)
    | some v => (setOpRval st op v, i + oplen + lit.length)

/-- `#reIndice` = `^\[-?\d+\]` plus `parseInt(query.slice(i+1), 10)`
(lines 130-137): the index value and the length of the bracketed match. -/
def parseIndice (q : List Char) (i : Nat) : Option (Int × Nat) :=
  match q.drop i with
  | '[' :: rest =>
    let (neg, ds0) : Bool × List Char :=
      match rest with
      | '-' :: r => (true, r)
      | _ => (false, rest)
    let ds := ds0.takeWhile Char.isDigit
    if ds = [] then none
    else
      match ds0.drop ds.length with
      | ']' :: _ =>
        let n : Int := (digitsToNat ds : Int)
        some (if neg then -n else n, 1 + (if neg then 1 else 0) + ds.length + 1)
      | _ => none
  | _ => none

/-- Set the negation flag (`r.steps.at(-1).not = true`, line 124). -/
def setNot : Step → Step
  | .mk m k ss o r _ => .mk m k ss o r true

/-- Replace the last step of a (guaranteed non-empty) list with its
negated version. -/
def modifyLast (steps : List Step) : List Step :=
  match steps.getLast? with
  | none => steps
  | some st => steps.dropLast ++ [setNot st]

mutual
/-- `#compile(query, i)` (lines 61-143): empty query fails; an anchor
step is pushed (`$` = root, anything else = current, consuming the
character only for `$`/`@`); then the accessor loop runs; finally a
plan with at most one step (the anchor alone) is a failure.  Fuel only
bounds the loop; the public entry point always supplies enough. -/
def compileAux : Nat → List Char → Nat → Except Unit (Option Plan)
  | 0, _, _ => .ok none
  | f + 1, q, i =>
    if q.length = 0 then .ok none
    else
      let c := charAt q i
      let anchor : Step :=
        Step.mk (if c = some '$' then .root else .current) none [] none none false
      let i1 := if c = some '$' ∨ c = some '@' then i + 1 else i
      match loopAux f q i1 [anchor] .undef0 with
      | .error e => .error e
      | .ok none => .ok none
      | .ok (some (steps, iend)) =>
        if steps.length ≤ 1 then .ok none else .ok (some ⟨steps, iend⟩)

/-- The accessor loop of `#compile` (lines 68-140), carrying the step
list and the pending movement `mv`.  Returns the final step list and
offset on a normal exit (`break`), `none` on a parse failure
(`return;`), and propagates the `TypeError` thrown by the quoted-key
scanner.  Note the bracket-index branch: the JS `mv ||= this.CHILDREN`
(line 133) reads an absent public property, so a falsy `mv` becomes the
JS `undefined` (`Mv.undefJS`) rather than `#CHILDREN`. -/
def loopAux : Nat → List Char → Nat → List Step → Mv → Except Unit (Option (List Step × Nat))
  | 0, _, _, _, _ => .ok none
  | f + 1, q, i, steps, mv =>
    if i = q.length then .ok (some (steps, i))
    else
      match charAt q i with
      | none => .ok none
      | some c =>
        if c = ' ' then loopAux f q (i + 1) steps mv
        else if c = '.' then
          if mv ≠ Mv.undef0 then .ok none
          else if startsWithAt ['.', '.'] q i then loopAux f q (i + 2) steps .descendants
          else loopAux f q (i + 1) steps .children
        else if c ≠ '[' then
          if mv = Mv.undef0 then
            match steps.getLast? with
            | none => .ok none
            | some last =>
              let r := compileExpr last q i
              .ok (some (steps.dropLast ++ [r.1], r.2))
          else
            match consumeUnquotedIdentifier q i with
            | none => .ok none
            | some s =>
              loopAux f q (i + s.length)
                (steps ++ [Step.mk mv (some (.str (String.mk s))) [] none none false]) .undef0
        else if startsWithAt ['[', '*', ']'] q i then
          loopAux f q (i + 3)
            (steps ++ [Step.mk (mvOr mv .children) (some (.str (String.mk ['*']))) [] none none false])
            .undef0
        else if startsWithAt ['[', sq] q i then
          match consumeQuotedIdentifier q (i + 2) with
          | .error e => .error e
          | .ok none => .ok none
          | .ok (some (s, i2)) =>
            loopAux f q i2
              (steps ++ [Step.mk (mvOr mv .children) (some (.str s)) [] none none false]) .undef0
        else if startsWithAt ['[', '?', '('] q i then
          let notF : Bool := charAt q (i + 3) == some '!'
          let j := i + 3 + (if notF then 1 else 0)
          match compileAux f q j with
          | .error e => .error e
          | .ok none => .ok none
          | .ok (some r) =>
            if startsWithAt [')', ']'] q r.i then
              let rsteps := if notF then modifyLast r.steps else r.steps
              loopAux f q (r.i + 2)
                (steps ++ [Step.mk (mvOr mv .children) none rsteps none none false]) .undef0
            else .ok none
        else
          match parseIndice q i with
          | some (n, len) =>
            loopAux f q (i + len)
              (steps ++ [Step.mk (mvOr mv .undefJS) (some (.idx n)) [] none none false]) .undef0
          | none => .ok none
end

/-- The public `compile(query)` path (lines 31-34) restricted to plan
production: `#compile(query, 0)` with fuel that the query length always
makes sufficient. -/
def compileStr (s : String) : Except Unit (Option Plan) :=
  compileAux (2 * s.length + 2) s.data 0

/-- Compile then evaluate: the `JSONPath.create(query)` /
`evaluate(root)` round trip. -/
def evaluateQuery (s : String) (root : Value) : Except Unit (List Path) :=
  match compileStr s with
  | .error e => .error e
  | .ok c => evaluateJP c root

/-! ### Infrastructure lemmas: path walking and resolution -/

/-- A path is reachable: the chained access walk from the root does not
throw.  This is the invariant maintained for every candidate path the
evaluator ever touches. -/
def Arrives (root : Value) (p : Path) : Prop :=
  ∃ w, walk (some root) p = .ok w

theorem walk_cons (o : Option Value) (k : Key) (ks : List Key) :
    walk o (k :: ks) =
      match jsIndex o k with
      | .error e => .error e
      | .ok w => walk w ks := rfl

theorem walk_append (p qs : List Key) : ∀ o, walk o (p ++ qs) =
    match walk o p with
    | .error e => .error e
    | .ok w => walk w qs := by
  induction p with
  | nil => intro o; rfl
  | cons k ks ih =>
    intro o
    rw [List.cons_append, walk_cons, walk_cons]
    cases jsIndex o k with
    | error e => rfl
    | ok w => exact ih w

theorem jsIndex_ok_iff (o : Option Value) (k : Key) (w : Option Value) :
    jsIndex o k = .ok w ↔ ∃ v0, o = some v0 ∧ v0 ≠ Value.null ∧ w = jsGet v0 k := by
  cases o with
  | none => simp [jsIndex]
  | some v => cases v <;> simp [jsIndex, eq_comm]

/-- A container receiver never throws on property access. -/
theorem jsIndex_container (v : Value) (k : Key) (h : isContainer v = true) :
    jsIndex (some v) k = .ok (jsGet v k) := by
  cases v <;> simp_all [jsIndex, isContainer]

theorem walk_single (o : Option Value) (k : Key) : walk o [k] = jsIndex o k := by
  rw [walk_cons]
  cases jsIndex o k <;> rfl

theorem walk_concat (root : Value) (q : List Key) (k : Key) (w : Option Value) :
    walk (some root) (q ++ [k]) = .ok w →
    ∃ o, walk (some root) q = .ok o ∧ jsIndex o k = .ok w := by
  intro h
  have hsplit := walk_append q [k] (some root)
  cases hq : walk (some root) q with
  | error e =>
    simp only [hq] at hsplit
    exact absurd (hsplit.symm.trans h) (by simp)
  | ok o =>
    simp only [hq, walk_single] at hsplit
    exact ⟨o, rfl, hsplit.symm.trans h⟩

/-- Resolving a reachable non-empty path: the container slot holds a
defined, non-null value and the result value is the property read from
it. -/
theorem resolve_of_walk_ne (root : Value) (q : List Key) (k : Key) (w : Option Value)
    (h : walk (some root) (q ++ [k]) = .ok w) :
    ∃ v0, walk (some root) q = .ok (some v0) ∧ v0 ≠ Value.null ∧
      resolvePath root (q ++ [k]) = .ok ⟨some v0, some k, jsGet v0 k⟩ ∧ w = jsGet v0 k := by
  obtain ⟨o, hq, hj⟩ := walk_concat root q k w h
  rcases (jsIndex_ok_iff o k w).mp hj with ⟨v0, rfl, hnn, hwv⟩
  refine ⟨v0, hq, hnn, ?_, hwv⟩
  simp only [resolvePath, List.getLast?_concat, List.dropLast_concat, hq, hj, hwv]

/-- Resolving a reachable path succeeds and reads the same value the
walk reaches. -/
theorem resolve_of_walk (root : Value) (p : Path) (w : Option Value)
    (h : walk (some root) p = .ok w) :
    ∃ r, resolvePath root p = .ok r ∧ r.value = w := by
  rcases List.eq_nil_or_concat p with rfl | ⟨q, k, hp⟩
  · refine ⟨⟨none, none, some root⟩, rfl, ?_⟩
    have : (Except.ok (some root) : Except Unit (Option Value)) = .ok w := h
    exact Except.ok.inj this
  · subst hp
    rw [List.concat_eq_append] at h ⊢
    obtain ⟨v0, _, _, hres, hwv⟩ := resolve_of_walk_ne root q k w h
    exact ⟨_, hres, hwv.symm⟩

/-- Extending a reachable path whose endpoint value is defined and
non-null stays reachable, and the walk reads the extending property. -/
theorem walk_extend (root : Value) (p : Path) (v : Value) (k : Key)
    (h : walk (some root) p = .ok (some v)) (hnn : v ≠ Value.null) :
    walk (some root) (p ++ [k]) = .ok (jsGet v k) := by
  rw [walk_append, h]
  show walk (some v) [k] = .ok (jsGet v k)
  rw [walk_single]
  cases v <;> simp_all [jsIndex]

/-! ### Infrastructure lemmas: well-formedness and lookups -/

theorem lookupField_eq_of_nodup (fs : List (String × Value))
    (h : (fs.map Prod.fst).Nodup) (k : String) (x : Value) (hm : (k, x) ∈ fs) :
    lookupField fs k = some x := by
  induction fs with
  | nil => simp at hm
  | cons kv rest ih =>
    obtain ⟨k0, v0⟩ := kv
    simp only [List.map_cons, List.nodup_cons] at h
    rcases List.mem_cons.mp hm with heq | hmem
    · cases heq
      simp [lookupField]
    · have hne : k0 ≠ k := by
        intro hkk
        exact h.1 (hkk ▸ List.mem_map.mpr ⟨(k, x), hmem, rfl⟩)
      simp only [lookupField, if_neg hne]
      exact ih h.2 hmem

theorem lookupField_mem (fs : List (String × Value)) (k : String) (x : Value)
    (h : lookupField fs k = some x) : (k, x) ∈ fs := by
  induction fs with
  | nil => simp [lookupField] at h
  | cons kv rest ih =>
    obtain ⟨k0, v0⟩ := kv
    by_cases hk : k0 = k
    · rw [lookupField, if_pos hk] at h
      exact List.mem_cons.mpr (Or.inl (by rw [hk, Option.some.inj h]))
    · rw [lookupField, if_neg hk] at h
      exact List.mem_cons.mpr (Or.inr (ih h))

/-- Any value read out of a well-formed value is well-formed. -/
theorem WFv_jsGet (v : Value) (k : Key) (w : Value) (hv : WFv v)
    (h : jsGet v k = some w) : WFv w := by
  cases v with
  | obj fs =>
    cases hv with
    | obj _ hnd hall =>
      cases k with
      | str s => exact hall _ (lookupField_mem fs s w h)
      | idx n => exact hall _ (lookupField_mem fs (toString n) w h)
  | arr xs =>
    cases hv with
    | arr _ hall =>
      cases k with
      | str s =>
        simp only [jsGet] at h
        cases hc : canonNat s.data with
        | none => rw [hc] at h; simp at h
        | some m =>
          rw [hc] at h
          exact hall _ (List.getElem?_mem h)
      | idx n =>
        simp only [jsGet] at h
        by_cases hn : 0 ≤ n
        · rw [if_pos hn] at h
          exact hall _ (List.getElem?_mem h)
        · rw [if_neg hn] at h; simp at h
  | null => simp [jsGet] at h
  | bool b => simp [jsGet] at h
  | num n => simp [jsGet] at h
  | str s => simp [jsGet] at h

/-- Well-formedness transports along a successful walk. -/
theorem WFv_walkO (p : List Key) : ∀ (o : Option Value) (v : Value),
    (∀ u, o = some u → WFv u) → walk o p = .ok (some v) → WFv v := by
  induction p with
  | nil =>
    intro o v ho h
    exact ho v (Except.ok.inj h)
  | cons k ks ih =>
    intro o v ho h
    rw [walk_cons] at h
    cases hj : jsIndex o k with
    | error e => rw [hj] at h; simp at h
    | ok w =>
      rw [hj] at h
      rcases (jsIndex_ok_iff o k w).mp hj with ⟨v0, rfl, _, rfl⟩
      exact ih (jsGet v0 k) v (fun u hu => WFv_jsGet v0 k u (ho v0 rfl) hu) h

theorem WFv_walk (root : Value) (p : Path) (v : Value) (hw : WFv root)
    (h : walk (some root) p = .ok (some v)) : WFv v :=
  WFv_walkO p (some root) v (fun u hu => by cases hu; exact hw) h

/-! ### Infrastructure lemmas: descendant enumeration -/

theorem withIdx_mem (xs : List Value) : ∀ (i : Nat) (k : Key) (x : Value),
    (k, x) ∈ withIdx i xs → ∃ j : Nat, k = Key.idx ((i + j : Nat) : Int) ∧ xs[j]? = some x := by
  induction xs with
  | nil => intro i k x h; simp [withIdx] at h
  | cons y ys ih =>
    intro i k x h
    rcases List.mem_cons.mp h with heq | hmem
    · refine ⟨0, ?_, ?_⟩
      · have := congrArg Prod.fst heq; simpa using this
      · have := congrArg Prod.snd heq; simpa using this.symm
    · obtain ⟨j, hk, hx⟩ := ih (i + 1) k x hmem
      exact ⟨j + 1, by rw [hk]; congr 1; omega, by simpa using hx⟩

theorem arrChildren_get (xs : List Value) (k : Key) (x : Value)
    (h : (k, x) ∈ withIdx 0 xs) : jsGet (.arr xs) k = some x := by
  obtain ⟨j, hk, hx⟩ := withIdx_mem xs 0 k x h
  subst hk
  simp only [jsGet, Nat.zero_add]
  rw [if_pos (by positivity)]
  simpa using hx

theorem objChildren_get (fs : List (String × Value)) (hnd : (fs.map Prod.fst).Nodup)
    (k : Key) (x : Value) (h : (k, x) ∈ objChildren fs) : jsGet (.obj fs) k = some x := by
  obtain ⟨⟨s, v⟩, hmem, heq⟩ := List.mem_map.mp h
  have h1 : Key.str s = k := congrArg Prod.fst heq
  have h2 : v = x := congrArg Prod.snd heq
  rw [← h1, ← h2]
  exact lookupField_eq_of_nodup fs hnd s v hmem

theorem container_ne_null (v : Value) (h : isContainer v = true) : v ≠ Value.null := by
  cases v <;> simp_all [isContainer]

theorem jsIndex_of_get (C : Value) (k : Key) (x : Value) (h : jsGet C k = some x) :
    jsIndex (some C) k = .ok (some x) := by
  cases C
  case null => exact absurd h (by simp [jsGet])
  all_goals simp only [jsIndex]; rw [h]

/-- Soundness of one layer of child emission: every entry either names a
direct child of the container or extends an entry of a child's own
enumeration. -/
theorem goChildren_sound (g : Value → List DEntry) (C : Value) :
    ∀ ch : List (Key × Value),
    (∀ kx ∈ ch, jsGet C kx.1 = some kx.2) →
    (∀ kx ∈ ch, ∀ e0 ∈ g kx.2,
        e0.path ≠ [] ∧ walk (some kx.2) e0.path = .ok (jsGet e0.obj e0.key)) →
    ∀ e ∈ goChildren g C ch,
      e.path ≠ [] ∧ walk (some C) e.path = .ok (jsGet e.obj e.key) := by
  intro ch
  induction ch with
  | nil => intro _ _ e he; simp [goChildren] at he
  | cons kx rest ih =>
    intro hch hg e he
    obtain ⟨k, x⟩ := kx
    have h1 : jsGet C k = some x := hch (k, x) (List.mem_cons_self _ _)
    rw [goChildren] at he
    rcases List.mem_cons.mp he with rfl | he2
    · refine ⟨by simp, ?_⟩
      show walk (some C) [k] = .ok (jsGet C k)
      rw [walk_single]
      rw [jsIndex_of_get C k x h1, h1]
    · rcases List.mem_append.mp he2 with hmap | hrest
      · obtain ⟨e0, he0, rfl⟩ := List.mem_map.mp hmap
        obtain ⟨hne0, hw0⟩ := hg (k, x) (List.mem_cons_self _ _) e0 he0
        refine ⟨by simp, ?_⟩
        show walk (some C) (k :: e0.path) = .ok (jsGet e0.obj e0.key)
        rw [walk_cons, jsIndex_of_get C k x h1]
        exact hw0
      · exact ih (fun kx2 h2 => hch kx2 (List.mem_cons_of_mem _ h2))
          (fun kx2 h2 => hg kx2 (List.mem_cons_of_mem _ h2)) e hrest

/-- Every entry of the (fueled) descendant enumeration of a well-formed
value has a non-empty relative path that walks successfully from the
value to exactly the entry's own `obj[key]` read. -/
theorem getDescF_sound : ∀ (f : Nat) (v : Value) (r : Bool) (e : DEntry),
    WFv v → e ∈ getDescendantsF f v r →
    e.path ≠ [] ∧ walk (some v) e.path = .ok (jsGet e.obj e.key) := by
  intro f
  induction f with
  | zero => intro v r e _ he; simp [getDescendantsF] at he
  | succ f ih =>
    intro v r e hv he
    cases v with
    | arr xs =>
      have he2 : e ∈ goChildren
          (fun x => if r ∧ isContainer x then getDescendantsF f x r else [])
          (.arr xs) (withIdx 0 xs) := he
      refine goChildren_sound _ (.arr xs) (withIdx 0 xs)
        (fun kx hkx => arrChildren_get xs kx.1 kx.2 (by simpa using hkx)) ?_ e he2
      intro kx hkx e0 he0
      have hwf : WFv kx.2 := by
        cases hv with
        | arr _ hall =>
          obtain ⟨j, _, hx⟩ := withIdx_mem xs 0 kx.1 kx.2 (by simpa using hkx)
          exact hall _ (List.getElem?_mem hx)
      by_cases hc : (r ∧ isContainer kx.2 : Prop)
      · rw [if_pos hc] at he0
        exact ih kx.2 r e0 hwf he0
      · rw [if_neg hc] at he0
        simp at he0
    | obj fs =>
      have he2 : e ∈ goChildren
          (fun x => if r ∧ isContainer x then getDescendantsF f x r else [])
          (.obj fs) (objChildren fs) := he
      have hnd : (fs.map Prod.fst).Nodup := by cases hv with | obj _ h1 _ => exact h1
      refine goChildren_sound _ (.obj fs) (objChildren fs)
        (fun kx hkx => objChildren_get fs hnd kx.1 kx.2 (by simpa using hkx)) ?_ e he2
      intro kx hkx e0 he0
      have hwf : WFv kx.2 := by
        cases hv with
        | obj _ _ hall =>
          obtain ⟨⟨s, w⟩, hmem, heq⟩ := List.mem_map.mp hkx
          have hw : w = kx.2 := congrArg Prod.snd heq
          exact hw ▸ hall _ hmem
      by_cases hc : (r ∧ isContainer kx.2 : Prop)
      · rw [if_pos hc] at he0
        exact ih kx.2 r e0 hwf he0
      · rw [if_neg hc] at he0
        simp at he0
    | null => simp [getDescendantsF] at he
    | bool b => simp [getDescendantsF] at he
    | num n => simp [getDescendantsF] at he
    | str s => simp [getDescendantsF] at he

theorem getDescendants_sound (v : Value) (r : Bool) (e : DEntry)
    (hv : WFv v) (he : e ∈ getDescendants v r) :
    e.path ≠ [] ∧ walk (some v) e.path = .ok (jsGet e.obj e.key) :=
  getDescF_sound (vsize v) v r e hv he

/-! ### Infrastructure lemmas: the evaluator never throws and only
produces reachable paths -/

/-- `#evaluateExpr` on a reachable non-empty candidate path returns
normally, and the only path it can push is the candidate itself. -/
theorem evaluateExpr_ok (root : Value) (st : Step) (q : List Key) (k : Key)
    (w : Option Value) (h : walk (some root) (q ++ [k]) = .ok w) :
    ∃ o : Option Path, evaluateExpr root st (q ++ [k]) = .ok o ∧
      (∀ x, o = some x → x = q ++ [k]) := by
  obtain ⟨v0, hq, hnn, hres, hwv⟩ := resolve_of_walk_ne root q k w h
  have hjk : jsIndexK (some v0) (some k) = .ok (jsGet v0 k) := by
    cases v0
    case null => exact absurd rfl hnn
    all_goals rfl
  rw [evaluateExpr, hres]
  simp only [hjk]
  split
  · exact ⟨none, rfl, by simp⟩
  · split
    · exact ⟨none, rfl, by simp⟩
    · exact ⟨some (q ++ [k]), rfl, by simp⟩

/-- Any reachable non-empty path can be fed to `evaluateExpr_ok`. -/
theorem evaluateExpr_ok' (root : Value) (st : Step) (p : Path)
    (hne : p ≠ []) (h : Arrives root p) :
    ∃ o : Option Path, evaluateExpr root st p = .ok o ∧
      (∀ x, o = some x → x = p) := by
  obtain ⟨w, hw⟩ := h
  rcases List.eq_nil_or_concat p with rfl | ⟨q, k, hp⟩
  · exact absurd rfl hne
  · subst hp
    rw [List.concat_eq_append] at hw ⊢
    exact evaluateExpr_ok root st q k w hw

/-- Folding `#evaluateExpr` over reachable non-emptycandidates
returns normally and only keeps candidates. -/
theorem evalExprMany_ok (root : Value) (st : Step) : ∀ ps : List Path,
    (∀ p ∈ ps, p ≠ [] ∧ Arrives root p) →
    ∃ out, evalExprMany root st ps = .ok out ∧ ∀ x ∈ out, x ∈ ps := by
  intro ps
  induction ps with
  | nil => exact fun _ => ⟨[], rfl, by simp⟩
  | cons p ps2 ih =>
    intro hall
    obtain ⟨hne, harr⟩ := hall p (List.mem_cons_self _ _)
    obtain ⟨o, ho, hox⟩ := evaluateExpr_ok' root st p hne harr
    obtain ⟨out2, h2, hsub⟩ := ih (fun x hx => hall x (List.mem_cons_of_mem _ hx))
    refine ⟨o.toList ++ out2, ?_, ?_⟩
    · rw [evalExprMany, ho, h2]
    · intro x hx
      rcases List.mem_append.mp hx with h3 | h3
      · cases o with
        | none => simp at h3
        | some y =>
          simp only [Option.toList, List.mem_singleton] at h3
          exact h3 ▸ (hox y rfl ▸ List.mem_cons_self _ _)
      · exact List.mem_cons_of_mem _ (hsub x h3)

/-- The descendant nested-plan loop returns normally and only keeps
extended candidate paths, provided the nested evaluator does. -/
theorem descEvalLoop_ok (root : Value) (ev : Path → List Step → Except Unit (List Path))
    (ss : List Step) (pathin : Path)
    (Hev : ∀ p, Arrives root p → ∃ out, ev p ss = .ok out) :
    ∀ entries : List DEntry, (∀ e ∈ entries, Arrives root (pathin ++ e.path)) →
    ∃ out, descEvalLoop ev ss pathin entries = .ok out ∧
      ∀ x ∈ out, ∃ e ∈ entries, x = pathin ++ e.path := by
  intro entries
  induction entries with
  | nil => exact fun _ => ⟨[], rfl, by simp⟩
  | cons e rest ih =>
    intro hall
    obtain ⟨out2, h2, hsub⟩ := ih (fun e2 he2 => hall e2 (List.mem_cons_of_mem _ he2))
    by_cases ha : isArrOpt (jsGet e.obj e.key) = true
    · refine ⟨out2, ?_, ?_⟩
      · rw [descEvalLoop, if_pos ha, h2]
      · intro x hx
        obtain ⟨e2, he2, hx2⟩ := hsub x hx
        exact ⟨e2, List.mem_cons_of_mem _ he2, hx2⟩
    · obtain ⟨r1, hr1⟩ := Hev (pathin ++ e.path) (hall e (List.mem_cons_self _ _))
      refine ⟨(if r1.isEmpty then [] else [pathin ++ e.path]) ++ out2, ?_, ?_⟩
      · rw [descEvalLoop, if_neg ha]
        simp only [hr1, h2]
      · intro x hx
        rcases List.mem_append.mp hx with h3 | h3
        · refine ⟨e, List.mem_cons_self _ _, ?_⟩
          by_cases he : r1.isEmpty
          · rw [if_pos he] at h3; simp at h3
          · rw [if_neg he] at h3; simpa using h3
        · obtain ⟨e2, he2, hx2⟩ := hsub x h3
          exact ⟨e2, List.mem_cons_of_mem _ he2, hx2⟩

/-- Walks relative to the resolved candidate value compose with the walk
to the candidate itself. -/
theorem walk_comp (root : Value) (pathin : Path) (v : Value)
    (hv : walk (some root) pathin = .ok (some v)) (p2 : List Key) (r2 : Option Value)
    (h2 : walk (some v) p2 = .ok r2) : walk (some root) (pathin ++ p2) = .ok r2 := by
  rw [walk_append, hv]
  exact h2

theorem wildcardBranch_ok (root : Value) (st : Step) (pathin : Path) (v : Value)
    (recursive : Bool) (hwv : WFv v)
    (hv : walk (some root) pathin = .ok (some v)) :
    ∃ out, wildcardBranch root st pathin v recursive = .ok out ∧
      ∀ x ∈ out, Arrives root x := by
  have hprop : ∀ p ∈ (getDescendants v recursive).map (fun e => pathin ++ e.path),
      p ≠ [] ∧ Arrives root p := by
    intro p hp
    obtain ⟨e, he, rfl⟩ := List.mem_map.mp hp
    obtain ⟨hne, hwdesc⟩ := getDescendants_sound v recursive e hwv he
    exact ⟨by simp [hne], ⟨_, walk_comp root pathin v hv _ _ hwdesc⟩⟩
  obtain ⟨out, ho, hsub⟩ := evalExprMany_ok root st _ hprop
  exact ⟨out, ho, fun x hx => (hprop x (hsub x hx)).2⟩

/-- Every target produced by the descendant key search is a non-empty
reachable path. -/
theorem descKeyTargets_ok (root : Value) (pathin : Path) (v : Value) (kk : Key)
    (recursive : Bool) (hwv : WFv v)
    (hv : walk (some root) pathin = .ok (some v)) :
    ∀ x ∈ descKeyTargets v kk pathin recursive, x ≠ [] ∧ Arrives root x := by
  intro x hx
  rw [descKeyTargets] at hx
  obtain ⟨e, he, hfe⟩ := List.mem_filterMap.mp hx
  cases hw : jsGet e.obj e.key with
  | none =>
    simp only [hw] at hfe
    exact absurd hfe (by simp)
  | some w =>
    simp only [hw] at hfe
    by_cases hcond : (isContainer w ∧ (jsGet w kk).isSome : Prop)
    · rw [if_pos hcond] at hfe
      have hx2 : x = pathin ++ e.path ++ [kk] := (Option.some.inj hfe).symm
      obtain ⟨hne, hwdesc⟩ := getDescendants_sound v recursive e hwv he
      have h1 : walk (some root) (pathin ++ e.path) = .ok (some w) :=
        walk_comp root pathin v hv _ _ (by rw [hwdesc, hw])
      have h2 := walk_extend root (pathin ++ e.path) w kk h1
        (container_ne_null w hcond.1)
      exact ⟨by simp [hx2], hx2 ▸ ⟨_, h2⟩⟩
    · rw [if_neg hcond] at hfe; simp at hfe

theorem keyTestBranch_ok (root : Value) (st : Step) (pathin : Path) (v : Value)
    (recursive : Bool) (kfirst kdesc : Key) (hwv : WFv v)
    (hv : walk (some root) pathin = .ok (some v)) (hnn : v ≠ Value.null) :
    ∃ out, keyTestBranch root st pathin v recursive kfirst kdesc = .ok out ∧
      ∀ x ∈ out, Arrives root x := by
  have hext := walk_extend root pathin v kfirst hv hnn
  obtain ⟨o, ho, hox⟩ := evaluateExpr_ok root st pathin kfirst _ hext
  have hfirstArr : ∀ x ∈ o.toList, Arrives root x := by
    intro x hx
    cases o with
    | none => simp at hx
    | some y =>
      simp only [Option.toList, List.mem_singleton] at hx
      rw [hx, hox y rfl]
      exact ⟨_, hext⟩
  cases recursive with
  | true =>
    have htarg := descKeyTargets_ok root pathin v kdesc true hwv hv
    obtain ⟨more, hmore, hmsub⟩ := evalExprMany_ok root st _ htarg
    refine ⟨o.toList ++ more, ?_, ?_⟩
    · simp [keyTestBranch, ho, hmore]
    · intro x hx
      rcases List.mem_append.mp hx with h3 | h3
      · exact hfirstArr x h3
      · exact (htarg x (hmsub x h3)).2
  | false =>
    refine ⟨o.toList, ?_, hfirstArr⟩
    simp [keyTestBranch, ho]

theorem nestedBranch_ok (ev : Path → List Step → Except Unit (List Path)) (root : Value)
    (st : Step) (pathin : Path) (v : Value) (recursive : Bool)
    (hwv : WFv v)
    (hv : walk (some root) pathin = .ok (some v)) (hnn : v ≠ Value.null)
    (Hev : ∀ p, Arrives root p → ∃ out, ev p st.steps = .ok out) :
    ∃ out, nestedBranch ev root st pathin v recursive = .ok out ∧
      ∀ x ∈ out, Arrives root x := by
  have hentry : ∀ e ∈ getDescendants v recursive, Arrives root (pathin ++ e.path) :=
    fun e he =>
      ⟨_, walk_comp root pathin v hv _ _ (getDescendants_sound v recursive e hwv he).2⟩
  obtain ⟨outD, hD, hDsub⟩ :=
    descEvalLoop_ok root ev st.steps pathin Hev (getDescendants v recursive) hentry
  have hDArr : ∀ x ∈ outD, Arrives root x := by
    intro x hx
    obtain ⟨e, he, rfl⟩ := hDsub x hx
    exact hentry e he
  have hPathinArr : Arrives root pathin := ⟨_, hv⟩
  obtain ⟨r1, hr1⟩ := Hev pathin hPathinArr
  -- the non-array branch, shared by every non-array constructor of v
  have hfirst : ∀ x ∈ (if r1.isEmpty then ([] : List Path) else [pathin]), Arrives root x := by
    intro x hx
    by_cases he : r1.isEmpty
    · rw [if_pos he] at hx; simp at hx
    · rw [if_neg he] at hx
      rw [List.mem_singleton.mp hx]
      exact hPathinArr
  have hcombArr : ∀ x ∈ (if r1.isEmpty then ([] : List Path) else [pathin]) ++ outD,
      Arrives root x := by
    intro x hx
    rcases List.mem_append.mp hx with h3 | h3
    · exact hfirst x h3
    · exact hDArr x h3
  cases v with
  | null => exact absurd rfl hnn
  | arr xs => exact ⟨outD, hD, hDArr⟩
  | bool b =>
    cases recursive with
    | true => exact ⟨_, by simp [nestedBranch, hr1, hD], hcombArr⟩
    | false => exact ⟨_, by simp [nestedBranch, hr1], hfirst⟩
  | num n =>
    cases recursive with
    | true => exact ⟨_, by simp [nestedBranch, hr1, hD], hcombArr⟩
    | false => exact ⟨_, by simp [nestedBranch, hr1], hfirst⟩
  | str t =>
    cases recursive with
    | true => exact ⟨_, by simp [nestedBranch, hr1, hD], hcombArr⟩
    | false => exact ⟨_, by simp [nestedBranch, hr1], hfirst⟩
  | obj fs =>
    cases recursive with
    | true => exact ⟨_, by simp [nestedBranch, hr1, hD], hcombArr⟩
    | false => exact ⟨_, by simp [nestedBranch, hr1], hfirst⟩

theorem ssize_eq (st : Step) : ssize st = 1 + ssizeList st.steps := by
  cases st; rfl

/-- Core invariant, single candidate: on a well-formed document, the
loop body of `#getMatches` never throws for a reachable candidate whose
value is defined and non-null, and every path it pushes is reachable.
`ev` abstracts the recursive `#evaluate` entry; it must be total on
strictly smaller nested plans. -/
theorem matchOneVal_ok (root : Value) (hwroot : WFv root)
    (ev : Path → List Step → Except Unit (List Path)) (N : Nat)
    (Hev : ∀ p ss, ssizeList ss < N → Arrives root p → ∃ out, ev p ss = .ok out)
    (st : Step) (hN : ssize st ≤ N) (pathin : Path) (v : Value)
    (hv : walk (some root) pathin = .ok (some v)) (hnn : v ≠ Value.null) :
    ∃ out, matchOneVal ev root pathin st v = .ok out ∧ ∀ x ∈ out, Arrives root x := by
  have hwv : WFv v := WFv_walk root pathin v hwroot hv
  have HevS : ∀ p, Arrives root p → ∃ out, ev p st.steps = .ok out := by
    intro p hp
    refine Hev p st.steps ?_ hp
    have := ssize_eq st
    omega
  cases hk : st.k with
  | none =>
    obtain ⟨out, ho, harr⟩ :=
      nestedBranch_ok ev root st pathin v (st.mv == Mv.descendants) hwv hv hnn HevS
    exact ⟨out, by simp [matchOneVal, hk, kTruthy, ho], harr⟩
  | some kk =>
    cases kk with
    | str s =>
      by_cases hs0 : s = ""
      · obtain ⟨out, ho, harr⟩ :=
          nestedBranch_ok ev root st pathin v (st.mv == Mv.descendants) hwv hv hnn HevS
        exact ⟨out, by simp [matchOneVal, hk, kTruthy, hs0, ho], harr⟩
      · by_cases hstar : s = ("*")
        · obtain ⟨out, ho, harr⟩ :=
            wildcardBranch_ok root st pathin v (st.mv == Mv.descendants) hwv hv
          exact ⟨out, by simp [matchOneVal, hk, kTruthy, hs0, hstar, ho], harr⟩
        · obtain ⟨out, ho, harr⟩ :=
            keyTestBranch_ok root st pathin v (st.mv == Mv.descendants)
              (Key.str s) (Key.str s) hwv hv hnn
          exact ⟨out, by simp [matchOneVal, hk, kTruthy, hs0, hstar, ho], harr⟩
    | idx n =>
      by_cases hn0 : n = 0
      · obtain ⟨out, ho, harr⟩ :=
          nestedBranch_ok ev root st pathin v (st.mv == Mv.descendants) hwv hv hnn HevS
        exact ⟨out, by simp [matchOneVal, hk, kTruthy, hn0, ho], harr⟩
      · cases v with
        | arr xs =>
          by_cases hlow : (if 0 ≤ n then n else (xs.length : Int) + n) < 0
          · exact ⟨[], by simp [matchOneVal, hk, kTruthy, hn0, hlow], by simp⟩
          · by_cases hhigh : (xs.length : Int) ≤ (if 0 ≤ n then n else (xs.length : Int) + n)
            · exact ⟨[], by simp [matchOneVal, hk, kTruthy, hn0, hlow, hhigh], by simp⟩
            · obtain ⟨out, ho, harr⟩ :=
                keyTestBranch_ok root st pathin (.arr xs) (st.mv == Mv.descendants)
                  (Key.idx (if 0 ≤ n then n else (xs.length : Int) + n)) (Key.idx n) hwv hv hnn
              exact ⟨out, by simp [matchOneVal, hk, kTruthy, hn0, hlow, hhigh, ho], harr⟩
        | null => exact absurd rfl hnn
        | bool b => exact ⟨[], by simp [matchOneVal, hk, kTruthy, hn0], by simp⟩
        | num m => exact ⟨[], by simp [matchOneVal, hk, kTruthy, hn0], by simp⟩
        | str t => exact ⟨[], by simp [matchOneVal, hk, kTruthy, hn0], by simp⟩
        | obj fs => exact ⟨[], by simp [matchOneVal, hk, kTruthy, hn0], by simp⟩

/-- Core invariant lifted to `matchOne`: resolution of a reachable
candidate never throws, and null/undefined values are skipped. -/
theorem matchOne_ok (root : Value) (hwroot : WFv root)
    (ev : Path → List Step → Except Unit (List Path)) (N : Nat)
    (Hev : ∀ p ss, ssizeList ss < N → Arrives root p → ∃ out, ev p ss = .ok out)
    (st : Step) (hN : ssize st ≤ N) (pathin : Path) (hp : Arrives root pathin) :
    ∃ out, matchOne ev root pathin st = .ok out ∧ ∀ x ∈ out, Arrives root x := by
  obtain ⟨w, hw⟩ := hp
  obtain ⟨r, hres, hval⟩ := resolve_of_walk root pathin w hw
  cases w with
  | none => exact ⟨[], by simp only [matchOne, hres, hval], by simp⟩
  | some v =>
    cases v with
    | null => exact ⟨[], by simp only [matchOne, hres, hval], by simp⟩
    | bool b =>
      obtain ⟨out, ho, harr⟩ := matchOneVal_ok root hwroot ev N Hev st hN pathin _ hw
        (by simp)
      exact ⟨out, by simp only [matchOne, hres, hval]; exact ho, harr⟩
    | num m =>
      obtain ⟨out, ho, harr⟩ := matchOneVal_ok root hwroot ev N Hev st hN pathin _ hw
        (by simp)
      exact ⟨out, by simp only [matchOne, hres, hval]; exact ho, harr⟩
    | str t =>
      obtain ⟨out, ho, harr⟩ := matchOneVal_ok root hwroot ev N Hev st hN pathin _ hw
        (by simp)
      exact ⟨out, by simp only [matchOne, hres, hval]; exact ho, harr⟩
    | arr xs =>
      obtain ⟨out, ho, harr⟩ := matchOneVal_ok root hwroot ev N Hev st hN pathin _ hw
        (by simp)
      exact ⟨out, by simp only [matchOne, hres, hval]; exact ho, harr⟩
    | obj fs =>
      obtain ⟨out, ho, harr⟩ := matchOneVal_ok root hwroot ev N Hev st hN pathin _ hw
        (by simp)
      exact ⟨out, by simp only [matchOne, hres, hval]; exact ho, harr⟩

/-- `#getMatches` over an all-reachable candidate set returns normally
with an all-reachable output. -/
theorem getMatchesHO_ok (root : Value) (hwroot : WFv root)
    (ev : Path → List Step → Except Unit (List Path)) (N : Nat)
    (Hev : ∀ p ss, ssizeList ss < N → Arrives root p → ∃ out, ev p ss = .ok out)
    (st : Step) (hN : ssize st ≤ N) :
    ∀ listin : List Path, (∀ p ∈ listin, Arrives root p) →
    ∃ out, getMatchesHO ev root listin st = .ok out ∧ ∀ x ∈ out, Arrives root x := by
  intro listin
  induction listin with
  | nil => exact fun _ => ⟨[], rfl, by simp⟩
  | cons p ps ih =>
    intro hall
    obtain ⟨outs, ho, harr⟩ := matchOne_ok root hwroot ev N Hev st hN p
      (hall p (List.mem_cons_self _ _))
    obtain ⟨rest, hrest, hrarr⟩ := ih (fun x hx => hall x (List.mem_cons_of_mem _ hx))
    refine ⟨outs ++ rest, by rw [getMatchesHO, ho, hrest], ?_⟩
    intro x hx
    rcases List.mem_append.mp hx with h3 | h3
    · exact harr x h3
    · exact hrarr x h3

/-- One `#evaluate` step iteration preserves the invariant. -/
theorem stepApply_ok (root : Value) (hwroot : WFv root)
    (ev : Path → List Step → Except Unit (List Path)) (N : Nat)
    (Hev : ∀ p ss, ssizeList ss < N → Arrives root p → ∃ out, ev p ss = .ok out)
    (st : Step) (hN : ssize st ≤ N) (pathin : Path) (hp : Arrives root pathin)
    (res : List Path) (hres : ∀ p ∈ res, Arrives root p) :
    ∃ out, stepApply ev root pathin res st = .ok out ∧ ∀ x ∈ out, Arrives root x := by
  cases hmv : st.mv with
  | root => exact ⟨[[]], by rw [stepApply, hmv], by simp [Arrives, walk]⟩
  | current =>
    refine ⟨[pathin], by rw [stepApply, hmv], ?_⟩
    intro x hx
    rw [List.mem_singleton.mp hx]
    exact hp
  | children =>
    obtain ⟨out, ho, harr⟩ := getMatchesHO_ok root hwroot ev N Hev st hN res hres
    exact ⟨out, by rw [stepApply, hmv]; exact ho, harr⟩
  | descendants =>
    obtain ⟨out, ho, harr⟩ := getMatchesHO_ok root hwroot ev N Hev st hN res hres
    exact ⟨out, by rw [stepApply, hmv]; exact ho, harr⟩
  | undef0 => exact ⟨res, by rw [stepApply, hmv], hres⟩
  | undefJS => exact ⟨res, by rw [stepApply, hmv], hres⟩

/-- The `#evaluate` step loop preserves the invariant. -/
theorem goSteps_ok (root : Value) (hwroot : WFv root)
    (ev : Path → List Step → Except Unit (List Path)) (N : Nat)
    (Hev : ∀ p ss, ssizeList ss < N → Arrives root p → ∃ out, ev p ss = .ok out)
    (pathin : Path) (hp : Arrives root pathin) :
    ∀ steps : List Step, ssizeList steps ≤ N →
    ∀ res : List Path, (∀ p ∈ res, Arrives root p) →
    ∃ out, goSteps ev root pathin steps res = .ok out ∧ ∀ x ∈ out, Arrives root x := by
  intro steps
  induction steps with
  | nil => exact fun _ res hres => ⟨res, rfl, hres⟩
  | cons st rest ih =>
    intro hsz res hres
    have hsz1 : ssize st ≤ N := by
      simp only [ssizeList] at hsz
      omega
    have hsz2 : ssizeList rest ≤ N := by
      simp only [ssizeList] at hsz
      have h0 : 0 ≤ ssize st := Nat.zero_le _
      omega
    obtain ⟨res2, h2, hres2⟩ := stepApply_ok root hwroot ev N Hev st hsz1 pathin hp res hres
    obtain ⟨out, ho, harr⟩ := ih hsz2 res2 hres2
    exact ⟨out, by rw [goSteps, h2]; exact ho, harr⟩

/-- Main totality and reachability invariant of the evaluator: with the
fuel the public entry point supplies, `#evaluate` never throws on a
well-formed document, and every produced path is reachable from the
root without throwing. -/
theorem evalSteps_ok (root : Value) (hwroot : WFv root) :
    ∀ (d : Nat) (steps : List Step), ssizeList steps < d →
    ∀ (pathin : Path), Arrives root pathin →
    ∀ (res : List Path), (∀ p ∈ res, Arrives root p) →
    ∃ out, evalSteps d root pathin steps res = .ok out ∧ ∀ x ∈ out, Arrives root x := by
  intro d
  induction d with
  | zero => intro steps hsz; omega
  | succ d ih =>
    intro steps hsz pathin hp res hres
    have Hev : ∀ p ss, ssizeList ss < d → Arrives root p →
        ∃ out, evalSteps d root p ss [] = .ok out := by
      intro p ss hss hparr
      obtain ⟨out, ho, _⟩ := ih ss hss p hparr [] (by simp)
      exact ⟨out, ho⟩
    obtain ⟨out, ho, harr⟩ := goSteps_ok root hwroot
      (fun p ss => evalSteps d root p ss []) d Hev pathin hp steps (by omega) res hres
    exact ⟨out, by rw [evalSteps]; exact ho, harr⟩

/-! ### Infrastructure lemmas: compiler gate and resolution converse -/

/-- Every successful compile passes the final plan gate of line 141:
the step list has at least the anchor and one accessor. -/
theorem compileAux_min_steps (f : Nat) (q : List Char) (i : Nat) (p : Plan)
    (h : compileAux f q i = .ok (some p)) : 2 ≤ p.steps.length := by
  cases f with
  | zero => simp [compileAux] at h
  | succ f =>
    rw [compileAux] at h
    split at h
    · simp at h
    · dsimp only at h
      split at h
      · simp at h
      · simp at h
      · rename_i steps iend heq
        split at h
        · simp at h
        · rename_i hgt
          have hp : p = ⟨steps, iend⟩ := (Option.some.inj (Except.ok.inj h)).symm
          rw [hp]
          show 2 ≤ steps.length
          omega

/-- Converse of `resolve_of_walk`: a successful resolution implies the
full walk succeeds with the same value. -/
theorem walk_of_resolve (root : Value) (p : Path) (r : Resolved)
    (h : resolvePath root p = .ok r) : walk (some root) p = .ok r.value := by
  rcases List.eq_nil_or_concat p with rfl | ⟨q, k, hp⟩
  · have h2 : (⟨none, none, some root⟩ : Resolved) = r := Except.ok.inj h
    rw [← h2]
    rfl
  · subst hp
    rw [List.concat_eq_append] at h ⊢
    simp only [resolvePath, List.getLast?_concat, List.dropLast_concat] at h
    cases hw : walk (some root) q with
    | error e => simp only [hw] at h; exact absurd h (by simp)
    | ok o =>
      simp only [hw] at h
      cases hj : jsIndex o k with
      | error e => simp only [hj] at h; exact absurd h (by simp)
      | ok w =>
        simp only [hj] at h
        have h2 : (⟨o, some k, w⟩ : Resolved) = r := Except.ok.inj h
        simp only [walk_append, hw, walk_single, hj, ← h2]

/-- Along any successful walk, every proper prefix reaches a defined,
non-null value (otherwise the next access would have thrown). -/
theorem walk_proper_prefix : ∀ (p : List Key) (o : Option Value)
    (res : Option Value), walk o p = .ok res →
    ∀ q, q <+: p → q ≠ p → ∃ w, walk o q = .ok (some w) ∧ w ≠ Value.null := by
  intro p
  induction p with
  | nil =>
    intro o res _ q hpre hne
    exact absurd (List.prefix_nil.mp hpre) hne
  | cons k rest ih =>
    intro o res h q hpre hne
    rw [walk_cons] at h
    cases hj : jsIndex o k with
    | error e => rw [hj] at h; simp at h
    | ok w1 =>
      rw [hj] at h
      rcases (jsIndex_ok_iff o k w1).mp hj with ⟨v0, rfl, hnn, hw1⟩
      cases q with
      | nil => exact ⟨v0, rfl, hnn⟩
      | cons k2 q2 =>
        obtain ⟨rfl, hpre2⟩ := List.cons_prefix_cons.mp hpre
        have hne2 : q2 ≠ rest := fun hq => hne (by rw [hq])
        obtain ⟨w2, hw2, hnn2⟩ := ih w1 res h q2 hpre2 hne2
        refine ⟨w2, ?_, hnn2⟩
        rw [walk_cons, hj]
        exact hw2

/-- When the first character is neither `$` nor `@`, `#compile` still
pushes a current-node anchor and enters the accessor loop at offset 0,
consuming nothing. -/
theorem compileAux_anchor (f : Nat) (q : List Char) (c : Char)
    (hhead : q.head? = some c) (h1 : c ≠ '$') (h2 : c ≠ '@') :
    compileAux (f + 1) q 0 =
      match loopAux f q 0 [Step.mk Mv.current none [] none none false] Mv.undef0 with
      | .error e => .error e
      | .ok none => .ok none
      | .ok (some (steps, iend)) =>
        if steps.length ≤ 1 then .ok none else .ok (some ⟨steps, iend⟩) := by
  have hne : ¬ q.length = 0 := by
    cases q
    · simp at hhead
    · simp
  have hc : charAt q 0 = some c := by
    cases q
    · simp at hhead
    · simpa [charAt] using hhead
  rw [compileAux, if_neg hne]
  dsimp only
  simp only [hc, Option.some.injEq, h1, h2, if_false, or_self, ite_false]

/-! ### Concrete documents and plans used by the claims -/

/-- `root = { a: [10, 20, 30] }` of the negative-indexing property. -/
def rootC1 : Value := .obj [("a", .arr [.num 10, .num 20, .num 30])]

/-- `{ a: { b: { c: 1 } } }` of the descendant-inclusion property. -/
def root6 : Value := .obj [("a", .obj [("b", .obj [("c", .num 1)])])]

/-- `{ items: [ {v:1}, {v:2}, {v:3} ] }` of the predicate property. -/
def root7 : Value :=
  .obj [("items", .arr [.obj [("v", .num 1)], .obj [("v", .num 2)], .obj [("v", .num 3)]])]

/-- `{ a: 1 }`. -/
def rootC5 : Value := .obj [("a", .num 1)]

/-- `{ a: [1], b: { x: 2 } }`: one branch with the wrong shape for a
key lookup, one with the right shape. -/
def rootMix : Value := .obj [("a", .arr [.num 1]), ("b", .obj [("x", .num 2)])]

theorem wfC5 : WFv rootC5 := by
  refine WFv.obj _ (by simp) ?_
  intro kv hkv
  simp only [List.mem_singleton] at hkv
  rw [hkv]
  exact WFv.num 1

/-- The query `$['\x']`: a backslash inside a bracket-quoted key. -/
def queryC2 : List Char := ['$', '[', sq, bsl, 'x', sq, ']']

/-- The plan `compile` produces for `$[?(@.a)]`. -/
def planC5 : Plan :=
  ⟨[Step.mk Mv.root none [] none none false,
    Step.mk Mv.children none
      [Step.mk Mv.current none [] none none false,
       Step.mk Mv.children (some (Key.str ("a"))) [] none none false]
      none none false], 9⟩

/-- The plan `compile` produces for `$.a`. -/
def planA : Plan :=
  ⟨[Step.mk Mv.root none [] none none false,
    Step.mk Mv.children (some (Key.str ("a"))) [] none none false], 3⟩

/-! ### Claims -/

/-- C1: the spec says `$.a[-1]` on `{a:[10,20,30]}` returns exactly
`['a', 2]` and `$.a[-5]` returns an empty sequence.  The code disagrees:
line 133 reads `this.CHILDREN`, a non-existent public property (the
sibling branches use `this.#CHILDREN`), so a bare bracket-index step is
compiled with movement `undefined`; the evaluator's `switch` sends it to
`default` and leaves the candidate set untouched.  Both queries
therefore return `[['a']]`: the index is never applied.  The spec is the
evident intent (it flags this very slip as an open question in its
design notes), so this is a code bug, witnessed here by evaluating the
code at the failing inputs. -/
theorem claim_C1 :
    evaluateQuery ("$.a[-1]") rootC1 = .ok [[Key.str ("a")]] ∧
    evaluateQuery ("$.a[-5]") rootC1 = .ok [[Key.str ("a")]] ∧
    evaluateQuery ("$.a[-1]") rootC1 ≠ .ok [[Key.str ("a"), Key.idx 2]] ∧
    evaluateQuery ("$.a[-5]") rootC1 ≠ .ok [] := by
  refine ⟨rfl, rfl, ?_, ?_⟩
  · rw [show evaluateQuery ("$.a[-1]") rootC1 = .ok [[Key.str ("a")]] from rfl]
    simp
  · rw [show evaluateQuery ("$.a[-5]") rootC1 = .ok [[Key.str ("a")]] from rfl]
    simp

/-- C2: the spec says compile is total — any failure is absorbed into
"no usable plan" and no exception propagates.  The code disagrees: the
quoted-identifier scanner calls `query.chatCodeAt(end+1)` (line 286), a
typo for `charCodeAt`, whenever it meets a backslash that is not the
final character, and that call throws
`TypeError: query.chatCodeAt is not a function` out of `compile`.
The failing input here is `$['\x']`. -/
theorem claim_C2 :
    compileStr (String.mk queryC2) = .error () := rfl

/-- C3: a valid plan has at least two steps — `#compile` refuses a
parse that produced only the anchor (line 141) — and evaluating with no
plan returns an empty sequence for every root without raising
(lines 35-36). -/
theorem claim_C3 :
    (∀ (q : String) (p : Plan), compileStr q = .ok (some p) → 2 ≤ p.steps.length) ∧
    (∀ root : Value, evaluateJP none root = .ok []) :=
  ⟨fun q p h => compileAux_min_steps _ _ _ p h, fun _ => rfl⟩

theorem claim_C3_witness :
    2 ≤ planA.steps.length ∧ evaluateJP none (.num 0) = .ok [] :=
  ⟨claim_C3.1 ("$.a") planA rfl, claim_C3.2 (.num 0)⟩

/-- C4: evaluation-time shape mismatches never abort evaluation: for
every compiled plan and every well-formed (acyclic, duplicate-free)
root value, `evaluate` returns normally — the fuel never runs out and
no property access throws — and a shape mismatch merely fails to extend
that one branch: concretely, `$.*.x` on `{a:[1], b:{x:2}}` still
returns `['b','x']` although the `a` branch has the wrong shape. -/
theorem claim_C4 :
    (∀ (q : String) (plan : Plan) (root : Value),
      compileStr q = .ok (some plan) → WFv root →
      ∃ out, evaluateJP (some plan) root = .ok out) ∧
    evaluateQuery ("$.*.x") rootMix = .ok [[Key.str ("b"), Key.str ("x")]] := by
  constructor
  · intro q plan root _ hw
    obtain ⟨out, ho, _⟩ := evalSteps_ok root hw (ssizeList plan.steps + 1) plan.steps
      (by omega) [] ⟨_, rfl⟩ [] (by simp)
    exact ⟨out, ho⟩
  · rfl

theorem claim_C4_witness :
    ∃ out, evaluateJP (some planA) (.num 5) = .ok out :=
  claim_C4.1 ("$.a") planA (.num 5) rfl (WFv.num 5)

/-- C5 (counterexample): the claim as stated — every path returned by
`evaluate` resolves to a container/key pair — fails for the empty path.
`$[?(@.a)]` on `{a:1}` returns exactly the empty path (the root itself
survives the predicate), and `resolvePath` on the empty path returns
only the root value with no container and no key (line 41). -/
theorem claim_C5_counterexample :
    ¬ (∀ (q : String) (plan : Plan) (root : Value) (out : List Path) (p : Path),
        compileStr q = .ok (some plan) → WFv root →
        evaluateJP (some plan) root = .ok out → p ∈ out →
        ∃ r o kk, resolvePath root p = .ok r ∧ r.obj = some o ∧ r.key = some kk) := by
  intro hclaim
  obtain ⟨r, o, kk, hres, hobj, _⟩ :=
    hclaim ("$[?(@.a)]") planC5 rootC5 [[]] [] rfl wfC5 rfl (by simp)
  have hr : (⟨none, none, some rootC5⟩ : Resolved) = r := Except.ok.inj hres
  rw [← hr] at hobj
  exact absurd hobj (by simp)

/-- C5 (amended): for every compiled plan, well-formed root, and path
`p` returned by `evaluate`, resolving `p` against the unmutated root
succeeds (no exception); when `p` is non-empty it yields a container
`o` and key `kk` whose current value `o[kk]` is exactly the resolved
value — the same value evaluation examined, since resolution is the
very operation matching used; the empty path resolves to the root
itself with no container/key. -/
theorem claim_C5 :
    ∀ (q : String) (plan : Plan) (root : Value) (out : List Path) (p : Path),
      compileStr q = .ok (some plan) → WFv root →
      evaluateJP (some plan) root = .ok out → p ∈ out →
      ∃ r, resolvePath root p = .ok r ∧
        (p = [] → r = ⟨none, none, some root⟩) ∧
        (p ≠ [] → ∃ o kk, r.obj = some o ∧ r.key = some kk ∧ r.value = jsGet o kk) := by
  intro q plan root out p _ hw hev hp
  obtain ⟨out2, ho2, harr⟩ := evalSteps_ok root hw (ssizeList plan.steps + 1) plan.steps
    (by omega) [] ⟨_, rfl⟩ [] (by simp)
  have hout : out2 = out := by
    have h2 : evaluateJP (some plan) root = .ok out2 := ho2
    exact Except.ok.inj (h2.symm.trans hev)
  obtain ⟨w, hwp⟩ := harr p (hout ▸ hp)
  rcases List.eq_nil_or_concat p with rfl | ⟨q2, k, hp2⟩
  · exact ⟨⟨none, none, some root⟩, rfl, fun _ => rfl, fun hne => absurd rfl hne⟩
  · subst hp2
    rw [List.concat_eq_append] at hwp ⊢
    obtain ⟨v0, _, _, hres, _⟩ := resolve_of_walk_ne root q2 k w hwp
    exact ⟨⟨some v0, some k, jsGet v0 k⟩, hres, fun hnil => absurd hnil (by simp),
      fun _ => ⟨v0, k, rfl, rfl, rfl⟩⟩

theorem claim_C5_witness :
    ∃ r, resolvePath rootC5 [Key.str ("a")] = .ok r ∧
      ([Key.str ("a")] = ([] : Path) → r = ⟨none, none, some rootC5⟩) ∧
      ([Key.str ("a")] ≠ ([] : Path) → ∃ o kk, r.obj = some o ∧ r.key = some kk ∧
        r.value = jsGet o kk) :=
  claim_C5 ("$.a") planA rootC5 [[Key.str ("a")]] [Key.str ("a")] rfl wfC5 rfl (by simp)

/-- C6: descendant search for a named key finds the key at any depth
below the anchored node: on `{ a: { b: { c: 1 } } }`, `$..c` returns
exactly `['a','b','c']` and `$..b` returns exactly `['a','b']`. -/
theorem claim_C6 :
    evaluateQuery ("$..c") root6 = .ok [[Key.str ("a"), Key.str ("b"), Key.str ("c")]] ∧
    evaluateQuery ("$..b") root6 = .ok [[Key.str ("a"), Key.str ("b")]] :=
  ⟨rfl, rfl⟩

/-- C7: bracketed sub-query predicates filter candidates by comparison:
on `{ items: [ {v:1}, {v:2}, {v:3} ] }`, `$.items[*][?(@.v>=2)]`
returns exactly the paths of the items with `v` 2 and 3, in their
original array order. -/
theorem claim_C7 :
    evaluateQuery ("$.items[*][?(@.v>=2)]") root7 =
      .ok [[Key.str ("items"), Key.idx 1], [Key.str ("items"), Key.idx 2]] := rfl

/-- C8: a comparison predicate whose right-hand literal fails to decode
as JSON does not fail the compile: `#compileExpr` consumes the matched
operator and literal but leaves the step without `op`/`rval`
(lines 304-308), and `#evaluateExpr` with no operator falls back to the
ownership (existence) check (line 327); concretely, `$.a==x)]` still
compiles, its last step carries no operator, and it matches `{a:5}`
by existence. -/
theorem claim_C8 :
    (∀ (st : Step) (q : List Char) (i : Nat) (op : Op) (oplen : Nat) (lit : List Char),
      reExprMatch (q.drop i) = some (op, oplen, lit) → jsonParse lit = none →
      compileExpr st q i = (st, i + oplen + lit.length)) ∧
    (∀ (root : Value) (st : Step) (p : Path) (r : Resolved) (w : Option Value),
      st.op = none → resolvePath root p = .ok r → jsIndexK r.obj r.key = .ok w →
      evaluateExpr root st p =
        .ok (if hasOwnR r.obj r.key = st.notFlag then none else some p)) ∧
    (∃ plan : Plan, compileStr ("$.a==x)]") = .ok (some plan) ∧
      plan.steps.getLast?.map Step.op = some none ∧
      evaluateQuery ("$.a==x)]") (.obj [("a", .num 5)]) = .ok [[Key.str ("a")]]) := by
  refine ⟨?_, ?_, ?_⟩
  · intro st q i op oplen lit hm hj
    simp only [compileExpr, hm, hj]
  · intro root st p r w hop hres hj
    rw [evaluateExpr, hres]
    simp only [hj, hop, Option.isSome_none, Bool.false_eq_true, false_and, if_false]
    split
    · rfl
    · rfl
  · exact ⟨⟨planA.steps, 6⟩, rfl, rfl, rfl⟩

theorem claim_C8_witness :
    compileExpr (Step.mk Mv.root none [] none none false) (("==x)]").data) 0 =
      (Step.mk Mv.root none [] none none false, 3) ∧
    evaluateExpr rootC5 (Step.mk Mv.children (some (Key.str ("a"))) [] none none false)
        [Key.str ("a")] = .ok (some [Key.str ("a")]) := by
  constructor
  · exact claim_C8.1 (Step.mk Mv.root none [] none none false) (("==x)]").data) 0
      Op.eq 2 (['x']) rfl rfl
  · have h := claim_C8.2.1 rootC5
      (Step.mk Mv.children (some (Key.str ("a"))) [] none none false)
      [Key.str ("a")] ⟨some rootC5, some (Key.str ("a")), some (.num 1)⟩
      (some (.num 1)) rfl rfl rfl
    rw [h]
    rfl

/-- C9: a query string beginning with neither `$` nor `@` is not
rejected: `#compile` still pushes an initial current-node anchor step
and starts the accessor loop at offset 0, consuming nothing
(lines 64-66); concretely `.a` compiles, its plan's steps coincide with
those of `@.a`, and the two queries evaluate identically on every
root. -/
theorem claim_C9 :
    (∀ (f : Nat) (q : List Char) (c : Char), q.head? = some c → c ≠ '$' → c ≠ '@' →
      compileAux (f + 1) q 0 =
        match loopAux f q 0 [Step.mk Mv.current none [] none none false] Mv.undef0 with
        | .error e => .error e
        | .ok none => .ok none
        | .ok (some (steps, iend)) =>
          if steps.length ≤ 1 then .ok none else .ok (some ⟨steps, iend⟩)) ∧
    (∃ p p2 : Plan, compileStr (".a") = .ok (some p) ∧ compileStr ("@.a") = .ok (some p2) ∧
      p.steps = p2.steps ∧
      p.steps.head? = some (Step.mk Mv.current none [] none none false)) ∧
    (∀ root : Value, evaluateQuery (".a") root = evaluateQuery ("@.a") root) := by
  refine ⟨compileAux_anchor, ?_, ?_⟩
  · exact ⟨⟨[Step.mk Mv.current none [] none none false,
        Step.mk Mv.children (some (Key.str ("a"))) [] none none false], 2⟩,
      ⟨[Step.mk Mv.current none [] none none false,
        Step.mk Mv.children (some (Key.str ("a"))) [] none none false], 3⟩,
      rfl, rfl, rfl, rfl⟩
  · intro root
    rfl

theorem claim_C9_witness :
    compileAux 6 ((".a").data) 0 =
      match loopAux 5 ((".a").data) 0 [Step.mk Mv.current none [] none none false] Mv.undef0 with
      | .error e => .error e
      | .ok none => .ok none
      | .ok (some (steps, iend)) =>
        if steps.length ≤ 1 then .ok none else .ok (some ⟨steps, iend⟩) :=
  claim_C9.1 5 ((".a").data) '.' rfl (by decide) (by decide)

/-- C10: `resolvePath` is partial on caller-supplied paths: on the empty
object and the path `['a','b']` the intermediate lookup yields
`undefined` and the final `obj[key]` read throws (first conjunct); and
whenever it does return normally, every proper prefix of the path has
walked to a defined, non-null value (second conjunct) — otherwise the
next chained access would have thrown. -/
theorem claim_C10 :
    resolvePath (.obj []) [Key.str ("a"), Key.str ("b")] = .error () ∧
    (∀ (root : Value) (path : Path) (r : Resolved), resolvePath root path = .ok r →
      ∀ q, q <+: path → q ≠ path →
        ∃ w, walk (some root) q = .ok (some w) ∧ w ≠ Value.null) := by
  constructor
  · rfl
  · intro root path r hres q hpre hne
    exact walk_proper_prefix path (some root) r.value (walk_of_resolve root path r hres)
      q hpre hne

theorem claim_C10_witness :
    ∃ w, walk (some rootC5) ([] : Path) = .ok (some w) ∧ w ≠ Value.null :=
  claim_C10.2 rootC5 [Key.str ("a")] ⟨some rootC5, some (Key.str ("a")), some (.num 1)⟩
    rfl [] (by simp) (by simp)

end JSONPath
